import Mathlib

/-!
Verification development for the car-rental record storage and
batch-ingestion pipeline (`as.cpp`, namespace `car_rental`).

The C++ code is shallowly embedded: each C++ function becomes an executable
Lean definition over `String`, `List`, `ℕ`, `ℤ` and `ℚ`.  The C++ `double`
price is modelled exactly where the program exercises it: values flowing
out of `std::stod` are `StodVal` (an exact rational, an infinity, or
NaN), and a stored record's price is `ℚ`, which is faithful because the
parser — like the source's `!std::isfinite` validator check — never lets
a non-finite price into a record.  Binary rounding of decimal text to
the nearest double is not modelled: the claims compare the program's own
reads and writes of decimal text, where the exact rational value is the
observable.
-/

namespace CarRental

/-- Embeds `struct CarRecord` (`as.cpp:22`).  `pricePerDay` is `double`
in the source, modelled as `ℚ`.  The `status` member initializer
`{"Available"}` is kept as a default field value. -/
structure CarRecord where
  id : String
  model : String
  condition : String
  pricePerDay : ℚ
  status : String := "Available"
deriving DecidableEq, Repr

/-- The `allowed` vector of `CarRecordValidator::validate` (`as.cpp:33`). -/
def allowedConditions : List String :=
  ["excellent", "good", "fair", "minordamages", "majordamages"]

/-- Embeds `CarRecordValidator::validate` (`as.cpp:32`).  The
`pricePerDay <= 0` test is kept; the source's `!std::isfinite` test is
always false on a `ℚ`-priced record, and its rejection of non-finite
`stod` results is rendered at the only place the source can produce one,
in the parser (`parseCore`), which returns the same `ValidationFailed`. -/
def validate (record : CarRecord) : Bool :=
  if record.id = "" ∨ record.model = "" then false
  else if ¬ (record.condition ∈ allowedConditions) then false
  else if record.pricePerDay ≤ 0 then false
  else true

/-! ### The comma tokenizer

`CarRecordParser::parse` splits its line with
`while (std::getline(ss, token, ','))` (`as.cpp:66`).  `std::getline`
reads up to the next `','` or end of input; at end of input with nothing
pending it fails without producing a token, so a line ending in `','`
yields no trailing empty token, and an empty line yields no tokens. -/

/-- One `std::getline(ss, token, ',')` loop, on the remaining characters
with the accumulator of the token being read.  At end of input the pending
token is produced; after a delimiter at end of input the next `getline`
call fails, so nothing further is produced. -/
def tokenizeAux : List Char → List Char → List (List Char)
  | [], acc => [acc]
  | c :: cs, acc =>
    if c = ',' then acc :: (if cs = [] then [] else tokenizeAux cs [])
    else tokenizeAux cs (acc ++ [c])

/-- The token list of a line: `std::getline` fails immediately on empty
input, producing no tokens. -/
def tokenize (l : List Char) : List (List Char) :=
  if l = [] then [] else tokenizeAux l []

/-- String-level tokenizer used by the parser embedding. -/
def tokStr (line : String) : List String :=
  (tokenize line.toList).map (fun l => ⟨l⟩)

/-! ### `std::stod`

`parse` converts the price field with `std::stod` (`as.cpp:79`), which
follows `strtod`: skip C-locale whitespace, then an optional sign and the
longest prefix of one of the forms the C standard admits —
a decimal number `digits [. digits] [e/E [sign] digits]` (the exponent
is only consumed when at least one exponent digit follows), a
hexadecimal number `0x hexdigits [. hexdigits] [p/P [sign] digits]`
(binary exponent), a case-insensitive infinity (`inf`/`infinity`), or a
case-insensitive `nan`.  If no conversion is possible the call fails
with `std::invalid_argument`.  A finite result is an exact rational
here (the model keeps the decimal value rather than its nearest
double); infinity and NaN results are the non-`val` constructors of
`StodVal` below. -/

/-- C-locale `isspace`. -/
def isCSpace (c : Char) : Bool :=
  c = ' ' ∨ c = '\t' ∨ c = '\n' ∨ c = '\x0b' ∨ c = '\x0c' ∨ c = '\r'

/-- Optional leading sign; returns (negative?, rest). -/
def scanSign : List Char → Bool × List Char
  | '-' :: rest => (true, rest)
  | '+' :: rest => (false, rest)
  | l => (false, l)

/-- The pieces of a decimal floating literal: sign, integer digits,
fraction digits, exponent sign and exponent digits. -/
structure DecParts where
  neg : Bool
  ip : List Char
  fp : List Char
  eneg : Bool
  ed : List Char
deriving DecidableEq, Repr

/-- Scans the longest decimal-number prefix after whitespace skipping;
`none` when no mantissa digit is found (`std::invalid_argument`). -/
def scanDouble (l : List Char) : Option DecParts :=
  let (neg, l1) := scanSign (l.dropWhile isCSpace)
  let ip := l1.takeWhile Char.isDigit
  let l2 := l1.dropWhile Char.isDigit
  let (fp, l3) :=
    match l2 with
    | '.' :: t => (t.takeWhile Char.isDigit, t.dropWhile Char.isDigit)
    | _ => ([], l2)
  if ip = [] ∧ fp = [] then none
  else
    let (eneg, ed) :=
      match l3 with
      | 'e' :: t => let (s, t1) := scanSign t; (s, t1.takeWhile Char.isDigit)
      | 'E' :: t => let (s, t1) := scanSign t; (s, t1.takeWhile Char.isDigit)
      | _ => (false, [])
    some ⟨neg, ip, fp, eneg, ed⟩

/-- Numeric value of a digit string (most significant first). -/
def digitsToNat (ds : List Char) : ℕ :=
  ds.foldl (fun n c => 10 * n + (c.toNat - 48)) 0

/-- The rational value denoted by scanned decimal parts. -/
def partsVal (p : DecParts) : ℚ :=
  let mant : ℚ := (digitsToNat (p.ip ++ p.fp) : ℚ) / 10 ^ p.fp.length
  let e : ℤ := (if p.eneg then -1 else 1) * (digitsToNat p.ed : ℤ)
  (if p.neg then -1 else 1) * mant * 10 ^ e

/-- The value categories `std::stod` can return: a finite double
(an exact rational here), positive or negative infinity, or NaN. -/
inductive StodVal where
  | val (q : ℚ)
  | posInf
  | negInf
  | nan
deriving DecidableEq, Repr

/-- Hexadecimal digit test (for `strtod`'s `0x` form). -/
def isHexDigitC (c : Char) : Bool :=
  c.isDigit || decide ('a' ≤ c ∧ c ≤ 'f') || decide ('A' ≤ c ∧ c ≤ 'F')

/-- Value of a hexadecimal digit. -/
def hexDigitVal (c : Char) : ℕ :=
  if c.isDigit then c.toNat - 48
  else if decide ('a' ≤ c ∧ c ≤ 'f') then c.toNat - 87
  else c.toNat - 55

/-- Numeric value of a hexadecimal digit string (most significant
first). -/
def hexDigitsToNat (ds : List Char) : ℕ :=
  ds.foldl (fun n c => 16 * n + hexDigitVal c) 0

/-- Case-insensitive match of `strtod`'s infinity spelling: the prefix
`inf` (of `inf` or `infinity`; the value is the same either way). -/
def matchInf : List Char → Bool
  | a :: b :: c :: _ => (a == 'i' || a == 'I') && (b == 'n' || b == 'N') && (c == 'f' || c == 'F')
  | _ => false

/-- Case-insensitive match of `strtod`'s `nan` spelling (an optional
`(n-char-seq)` does not change the value). -/
def matchNan : List Char → Bool
  | a :: b :: c :: _ => (a == 'n' || a == 'N') && (b == 'a' || b == 'A') && (c == 'n' || c == 'N')
  | _ => false

/-- Does the (sign-stripped) text start a hexadecimal conversion?
`strtod` requires `0x`/`0X` followed by a hex digit, directly or after a
point; a bare `0x` converts only the leading `0` as a decimal zero. -/
def isHexForm (l : List Char) : Bool :=
  match l with
  | '0' :: x :: rest =>
    (x == 'x' || x == 'X') &&
      (match rest with
       | c :: rest2 =>
         isHexDigitC c ||
           (c == '.' &&
             (match rest2 with
              | d :: _ => isHexDigitC d
              | [] => false))
       | [] => false)
  | _ => false

/-- The syntactic classes of a `strtod` scan: no conversion, an
infinity, a NaN, a hexadecimal literal's pieces, or a decimal literal's
pieces. -/
inductive StodParts where
  | noConv
  | inf (neg : Bool)
  | nan
  | hex (neg : Bool) (ip fp : List Char) (eneg : Bool) (ed : List Char)
  | dec (p : DecParts)
deriving DecidableEq, Repr

/-- Scans the longest `strtod` prefix after whitespace and sign:
infinity and NaN spellings first, then the hexadecimal form (mantissa
hex digits around an optional point, optional `p`-exponent consumed only
when at least one exponent digit follows), else the decimal scan. -/
def scanStod (l : List Char) : StodParts :=
  let l0 := l.dropWhile isCSpace
  let (neg, l1) := scanSign l0
  if matchInf l1 then .inf neg
  else if matchNan l1 then .nan
  else if isHexForm l1 then
    let l2 := l1.drop 2
    let ip := l2.takeWhile isHexDigitC
    let l3 := l2.dropWhile isHexDigitC
    let (fp, l4) :=
      match l3 with
      | '.' :: t => (t.takeWhile isHexDigitC, t.dropWhile isHexDigitC)
      | _ => ([], l3)
    let (eneg, ed) :=
      match l4 with
      | 'p' :: t => let (s1, t1) := scanSign t; (s1, t1.takeWhile Char.isDigit)
      | 'P' :: t => let (s1, t1) := scanSign t; (s1, t1.takeWhile Char.isDigit)
      | _ => (false, [])
    .hex neg ip fp eneg ed
  else
    match scanDouble l with
    | some p => .dec p
    | none => .noConv

/-- The `std::stod` result denoted by scanned pieces: `none` models the
`std::invalid_argument` throw, a hex mantissa scales by a power of two,
and a decimal one by a power of ten. -/
def stodVal : StodParts → Option StodVal
  | .noConv => none
  | .inf neg => some (if neg then .negInf else .posInf)
  | .nan => some .nan
  | .hex neg ip fp eneg ed =>
    let e : ℤ := (if eneg then -1 else 1) * (digitsToNat ed : ℤ)
    some (.val ((if neg then -1 else 1) * ((hexDigitsToNat (ip ++ fp) : ℚ) / 16 ^ fp.length)
      * 2 ^ e))
  | .dec p => some (.val (partsVal p))

/-- Embeds `std::stod`: `none` models the `std::invalid_argument`
throw; `out_of_range` overflow of the double range is not modelled. -/
def stodE (s : String) : Option StodVal :=
  stodVal (scanStod s.toList)

/-- The finite-value view of `stodE`: `some q` exactly when `std::stod`
succeeds and returns the finite value `q`; `none` when it throws or
returns an infinity or NaN. -/
def stodM (s : String) : Option ℚ :=
  match stodE s with
  | some (.val q) => some q
  | _ => none

/-! ### `operator<<(double)`

`CarRecordParser::serialize` prints the price with `oss << pricePerDay`
(`as.cpp:99`): default floating-point formatting, i.e. `%g` with
precision 6 — round to six significant digits, use fixed notation when
the decimal exponent `X` satisfies `-4 ≤ X < 6` and scientific notation
otherwise, and drop trailing fractional zeros.  The computation below
works on numerator and denominator in `ℕ`. -/

/-- Decimal digit characters of a natural number, most significant first
(fuel-based structural recursion). -/
def natDigitsAux : ℕ → ℕ → List Char
  | 0, _ => []
  | fuel + 1, n =>
    if n < 10 then [Char.ofNat (48 + n)]
    else natDigitsAux fuel (n / 10) ++ [Char.ofNat (48 + n % 10)]

/-- Decimal digit characters of `n`. -/
def natDigits (n : ℕ) : List Char := natDigitsAux (n + 1) n

/-- Left-pads a digit list with `'0'` to length `k`. -/
def padZeros (k : ℕ) (l : List Char) : List Char :=
  List.replicate (k - l.length) '0' ++ l

/-- Removes trailing `'0'` characters. -/
def stripTrailingZeros (l : List Char) : List Char :=
  (l.reverse.dropWhile (fun c => c = '0')).reverse

/-- Decides `10 ^ e ≤ n / d` over `ℕ`. -/
def le10pow (e : ℤ) (n d : ℕ) : Bool :=
  if 0 ≤ e then 10 ^ e.toNat * d ≤ n else d ≤ 10 ^ (-e).toNat * n

/-- The decimal exponent of `n / d` (for `1 ≤ n`, `1 ≤ d`): the unique
`X` with `10 ^ X ≤ n / d < 10 ^ (X + 1)`. -/
def decExp (n d : ℕ) : ℤ :=
  let a : ℤ := ((natDigits n).length : ℤ) - 1
  let b : ℤ := ((natDigits d).length : ℤ) - 1
  if le10pow (a - b) n d then a - b else a - b - 1

/-- Rounds `a / d` to the nearest integer, ties to even. -/
def roundHE (a d : ℕ) : ℕ :=
  let fl := a / d
  let r2 := 2 * (a % d)
  if r2 < d then fl else if d < r2 then fl + 1
  else if fl % 2 = 0 then fl else fl + 1

/-- Fixed notation (`%f`-style, used by `%g` for `-4 ≤ X < 6`): place the
decimal point after `X + 1` of the six significant digits `ds`, or lead
with `0.` and `-X - 1` zeros when `X < 0`; trailing fractional zeros are
removed. -/
def fmtFixed (X : ℤ) (ds : List Char) : List Char :=
  if 0 ≤ X then
    let ip := ds.take (X.toNat + 1)
    let fp := stripTrailingZeros (ds.drop (X.toNat + 1))
    if fp = [] then ip else ip ++ '.' :: fp
  else
    '0' :: '.' :: (List.replicate (-(X + 1)).toNat '0' ++ stripTrailingZeros ds)

/-- Scientific notation (`%e`-style, used by `%g` otherwise): one leading
digit, the remaining significant digits with trailing zeros removed, and
an `e`, a sign and a two-digit-minimum exponent. -/
def fmtSci (X : ℤ) (ds : List Char) : List Char :=
  let fp := stripTrailingZeros ds.tail
  let mant := if fp = [] then ds.take 1 else ds.take 1 ++ '.' :: fp
  let esign := if X < 0 then '-' else '+'
  mant ++ 'e' :: esign :: padZeros 2 (natDigits X.natAbs)

/-- `%g`-with-precision-6 formatting of the positive rational `n / d`:
round to six significant digits (bumping the exponent when rounding
carries into a seventh digit), then choose fixed or scientific layout. -/
def fmtCore (n d : ℕ) : List Char :=
  let X := decExp n d
  let a := n * 10 ^ ((5 - X).toNat)
  let b := d * 10 ^ ((X - 5).toNat)
  let r0 := roundHE a b
  let r6 := if r0 = 10 ^ 6 then 10 ^ 5 else r0
  let X1 := if r0 = 10 ^ 6 then X + 1 else X
  let ds := padZeros 6 (natDigits r6)
  if -4 ≤ X1 ∧ X1 < 6 then fmtFixed X1 ds else fmtSci X1 ds

/-- Embeds `operator<<` on a `double` under default stream flags. -/
def fmtDouble (q : ℚ) : String :=
  if q = 0 then "0"
  else if q < 0 then ⟨'-' :: fmtCore q.num.natAbs q.den⟩
  else ⟨fmtCore q.num.natAbs q.den⟩

/-! ### Parser and serializer -/

/-- The three exceptions of the parser layer: the explicit
`Malformed car record` throw, `std::stod`'s `std::invalid_argument`, and
the `Validation failed` throw (`as.cpp:71,79,86`); the spec names them
`MalformedRecord`, `InvalidNumber`, `ValidationFailed`. -/
inductive ParseError where
  | malformedRecord
  | invalidNumber
  | validationFailed
deriving DecidableEq, Repr

instance {e a : Type} [DecidableEq e] [DecidableEq a] : DecidableEq (Except e a)
  | .ok x, .ok y => decidable_of_iff (x = y) (by simp)
  | .error x, .error y => decidable_of_iff (x = y) (by simp)
  | .ok _, .error _ => isFalse (by simp)
  | .error _, .ok _ => isFalse (by simp)

/-- The body of `CarRecordParser::parse` after tokenization
(`as.cpp:70` to `as.cpp:89`), as a function of the token list.  The
ternary chains on `tokens.size()` are kept as written, including the
unreachable `"Available"` default (reachable only when `tokens.size() ==
3`, which the `< 4` guard has already rejected).  When `stod` returns an
infinity or NaN the source still assembles the record and `validate`
rejects it through `!std::isfinite` (`as.cpp:45`), so `parse` throws
`Validation failed`; a `ℚ`-priced record cannot hold that value, so the
model returns that same `.error .validationFailed` at this point (the
other validator checks cannot rescue the record: a non-finite price
makes `validate` false whatever the string fields are). -/
def parseCore (tokens : List String) : Except ParseError (Option CarRecord) :=
  if tokens.length < 4 then .error .malformedRecord
  else
    let id := tokens.getD 0 ""
    let model := if tokens.length > 4 then tokens.getD 1 "" else tokens.getD 0 ""
    let condition := if tokens.length > 4 then tokens.getD 2 "" else tokens.getD 1 ""
    match stodE (if tokens.length > 4 then tokens.getD 3 "" else tokens.getD 2 "") with
    | none => .error .invalidNumber
    | some .posInf => .error .validationFailed
    | some .negInf => .error .validationFailed
    | some .nan => .error .validationFailed
    | some (.val price) =>
      let status :=
        if tokens.length > 4 then tokens.getD 4 ""
        else if tokens.length > 3 then tokens.getD 3 "" else "Available"
      let record : CarRecord :=
        { id := id, model := model, condition := condition
          pricePerDay := price, status := status }
      if validate record then .ok (some record) else .error .validationFailed

/-- Embeds `CarRecordParser::parse` (`as.cpp:58`).  `.ok none` is the
`std::nullopt` return for an empty line; thrown exceptions become
`.error`. -/
def parseE (line : String) : Except ParseError (Option CarRecord) :=
  if line = "" then .ok none
  else parseCore (tokStr line)

/-- Embeds `CarRecordParser::serialize` (`as.cpp:92`): validate, then
join `id, model, condition, price, status` with commas, the price under
default stream formatting. -/
def serializeE (record : CarRecord) : Except ParseError String :=
  if validate record then
    .ok (record.id ++ "," ++ record.model ++ "," ++ record.condition ++ ","
          ++ fmtDouble record.pricePerDay ++ "," ++ record.status)
  else .error .validationFailed

/-! ### The transactional file writer

`TransactionalFileWriter::write` (`as.cpp:112`) is I/O code; it is
embedded as the sequence of filesystem states its steps produce, so that
an interruption at any point is the truncation of that sequence.  Only
the two paths the writer touches are modelled: the target and the
sibling `target + ".tmp"` file; `none` is an absent file, `some ls` a
file holding exactly the lines `ls`. -/

/-- The target file and the temporary file of one writer. -/
structure FsState where
  target : Option (List String)
  tmp : Option (List String)
deriving DecidableEq, Repr

/-- The filesystem states produced by `TransactionalFileWriter::write`,
in execution order: the initial state; opening the temporary file with
`std::ios::trunc` and appending the lines one at a time (`as.cpp:126`);
then `fs::remove(target)` when the target exists (`as.cpp:139`); then
`fs::rename(tmpPath, target)` (`as.cpp:142`). -/
def writeTrace (init : FsState) (lines : List String) : List FsState :=
  let writing :=
    (List.range (lines.length + 1)).map
      (fun k => { init with tmp := some (lines.take k) })
  let closed : FsState := { init with tmp := some lines }
  let afterRemove := if closed.target.isSome then { closed with target := none } else closed
  let final : FsState := { afterRemove with target := some lines, tmp := none }
  (init :: writing) ++ [afterRemove, final]

/-- The states in which the write can be interrupted after the temporary
file has been completely written but before the rename onto the target
has completed. -/
def windowStates (init : FsState) (lines : List String) : List FsState :=
  ((writeTrace init lines).drop (lines.length + 1)).dropLast

/-! ### The repository

`CarRepository` (`as.cpp:275`) holds `std::unordered_map<std::string,
CarRecord> records_` and `bool dirty_`, over a `StorageBackend`.  The map
is embedded as an association list whose keys are kept unique by
`mapInsert`; the backend is embedded by recording the sequence of
`persistCars` calls the repository makes. -/

/-- `records_[record.id] = record` on a unique-key association list:
replace in place when the key is present, append otherwise. -/
def mapInsert (m : List (String × CarRecord)) (k : String) (v : CarRecord) :
    List (String × CarRecord) :=
  if m.any (fun p => p.1 = k) then
    m.map (fun p => if p.1 = k then (k, v) else p)
  else m ++ [(k, v)]

/-- The repository state: the id-keyed map, the dirty flag, and the log
of `persistCars` calls issued to the backend. -/
structure Repo where
  records : List (String × CarRecord)
  dirty : Bool
  persistLog : List (List CarRecord)
deriving DecidableEq, Repr

/-- Embeds `CarRepository::find` (`as.cpp:316`). -/
def rfind (repo : Repo) (id : String) : Option CarRecord :=
  (repo.records.find? (fun p => p.1 = id)).map (fun p => p.2)

/-- List-level lookup underlying `rfind`. -/
def mfind (m : List (String × CarRecord)) (k : String) : Option CarRecord :=
  (m.find? (fun p => p.1 = k)).map (fun p => p.2)

/-- The key list of the association-list map. -/
def keysOf (m : List (String × CarRecord)) : List String :=
  m.map (fun p => p.1)

/-- Insertion by ascending `id`, one step of the `std::sort` comparator
`lhs.id < rhs.id` of `CarRepository::all` (`as.cpp:297`). -/
def insertById (r : CarRecord) : List CarRecord → List CarRecord
  | [] => [r]
  | x :: xs => if r.id < x.id then r :: x :: xs else x :: insertById r xs

/-- Embeds `CarRepository::all` (`as.cpp:291`): every cached record,
sorted by ascending `id`. -/
def allRecords (repo : Repo) : List CarRecord :=
  (repo.records.map (fun p => p.2)).foldr insertById []

/-- Embeds `CarRepository::upsert` (`as.cpp:324`). -/
def upsert (repo : Repo) (r : CarRecord) : Repo :=
  { repo with records := mapInsert repo.records r.id r, dirty := true }

/-- Embeds `CarRepository::bulkUpsert` (`as.cpp:340`):
insert each record, then `dirty_ = dirty_ || !records.empty()`. -/
def bulkUpsert (repo : Repo) (rs : List CarRecord) : Repo :=
  { repo with
    records := rs.foldl (fun m r => mapInsert m r.id r) repo.records
    dirty := repo.dirty || !rs.isEmpty }

/-- Embeds `CarRepository::flush` (`as.cpp:347`): a no-op unless dirty,
otherwise one `persistCars(all())` call and the dirty flag cleared. -/
def flush (repo : Repo) : Repo :=
  if !repo.dirty then repo
  else { repo with persistLog := repo.persistLog ++ [allRecords repo], dirty := false }

/-- Embeds `CarRepository::reload` (`as.cpp:282`) for a backend whose
`loadCars` returns `loaded`: clear the map, key each loaded record by its
id (later duplicates overwriting earlier ones), clear dirty.  The
constructor (`as.cpp:277`) makes this the initial repository state. -/
def mkRepo (loaded : List CarRecord) : Repo :=
  { records := loaded.foldl (fun m r => mapInsert m r.id r) []
    dirty := false
    persistLog := [] }

/-- One repository mutation of the kind claim C5 quantifies over. -/
inductive RepoOp where
  | up (r : CarRecord)
  | bulk (rs : List CarRecord)
deriving Repr

/-- Applies one mutation. -/
def applyOp (repo : Repo) : RepoOp → Repo
  | .up r => upsert repo r
  | .bulk rs => bulkUpsert repo rs

/-- Applies a call sequence left to right. -/
def applyOps (repo : Repo) (ops : List RepoOp) : Repo :=
  ops.foldl applyOp repo

/-- The records a call sequence writes, in write order. -/
def opRecords : RepoOp → List CarRecord
  | .up r => [r]
  | .bulk rs => rs

/-- The last record with the given id in a write sequence, if any
(spec-side notion: "the last record written with that id"). -/
def lastWrittenIn (rs : List CarRecord) (id : String) : Option CarRecord :=
  rs.reverse.find? (fun r => r.id = id)

/-! ### Streaming and batch ingestion

`CarFilePipeline::stream` (`as.cpp:162`) reads the file line by line,
parses each line, hands each produced record to the consumer, and
catches any parse exception, logging a warning and skipping the line.
The file is embedded as its list of lines; the consumer as a fold. -/

/-- Embeds the `stream` read loop over the lines of an existing file:
a parsed record is consumed, an empty line produces nothing, and a
thrown parse error is caught and the line skipped. -/
def streamFold {α : Type} (lines : List String) (consume : α → CarRecord → α) (a : α) : α :=
  lines.foldl
    (fun acc line =>
      match parseE line with
      | .ok (some record) => consume acc record
      | .ok none => acc
      | .error _ => acc)
    a

/-- Spec-side description of what `stream` delivers: exactly the
successfully parsed records, in file order. -/
def parsedRecords (lines : List String) : List CarRecord :=
  lines.filterMap
    (fun line =>
      match parseE line with
      | .ok (some record) => some record
      | _ => none)

/-- The `std::invalid_argument` of `BatchProcessor::ingest`
(`as.cpp:450`); the spec calls it `InvalidArgument`. -/
inductive IngestError where
  | invalidArgument
deriving DecidableEq, Repr

/-- `struct BatchMetrics` (`as.cpp:437`) without the wall-clock
`duration` field, which the model does not measure. -/
structure BatchMetrics where
  processedRecords : ℕ
  batches : ℕ
deriving DecidableEq, Repr

/-- The loop state of `BatchProcessor::ingest`: the chunk buffer, the
metrics so far, and the repository. -/
structure IngestState where
  buffer : List CarRecord
  metrics : BatchMetrics
  repo : Repo
deriving Repr

/-- The consumer lambda of `BatchProcessor::ingest` (`as.cpp:459`):
buffer the record, count it, and on reaching the chunk size bulk-upsert
the buffer, flush, clear the buffer and count the batch. -/
def ingestStep (chunkSize : ℕ) (st : IngestState) (record : CarRecord) : IngestState :=
  let buffer := st.buffer ++ [record]
  let processed := st.metrics.processedRecords + 1
  if chunkSize ≤ buffer.length then
    { buffer := []
      metrics := { processedRecords := processed, batches := st.metrics.batches + 1 }
      repo := flush (bulkUpsert st.repo buffer) }
  else
    { st with buffer := buffer, metrics := { st.metrics with processedRecords := processed } }

/-- Embeds `BatchProcessor::ingest` (`as.cpp:448`) over the lines of the
source file: reject a zero chunk size before anything else, stream the
file through `ingestStep`, then flush any non-empty remainder as one
more batch. -/
def ingest (repo : Repo) (lines : List String) (chunkSize : ℕ) :
    Except IngestError (BatchMetrics × Repo) :=
  if chunkSize = 0 then .error .invalidArgument
  else
    let st := streamFold lines (ingestStep chunkSize)
      { buffer := [], metrics := { processedRecords := 0, batches := 0 }, repo := repo }
    if st.buffer.isEmpty then .ok (st.metrics, st.repo)
    else
      .ok ({ processedRecords := st.metrics.processedRecords, batches := st.metrics.batches + 1 },
           flush (bulkUpsert st.repo st.buffer))

/-! ### Spec-side parser description (for the refinement claims) -/

/-- Completes a record from assigned fields: convert the price field
with `stod` (`InvalidNumber` when no conversion is possible; an infinity
or NaN result fails the validator's finiteness invariant, giving
`ValidationFailed`), then validate (`ValidationFailed` on failure). -/
def finishRecord (id model condition priceField status : String) :
    Except ParseError (Option CarRecord) :=
  match stodE priceField with
  | none => .error .invalidNumber
  | some .posInf => .error .validationFailed
  | some .negInf => .error .validationFailed
  | some .nan => .error .validationFailed
  | some (.val price) =>
    let record : CarRecord :=
      { id := id, model := model, condition := condition
        pricePerDay := price, status := status }
    if validate record then .ok (some record) else .error .validationFailed

/-- Spec-side field assignment, following the claim's words: an empty
line produces no record; exactly 5 fields map positionally to
id/model/condition/price/status; exactly 4 fields are the legacy layout
model/condition/price/status with the first field re-used as the id;
fewer than 4 fields fail with `MalformedRecord`. -/
def specParse (fields : List String) : Except ParseError (Option CarRecord) :=
  match fields with
  | [] => .ok none
  | [m, c, p, s] => finishRecord m m c p s
  | f0 :: f1 :: f2 :: f3 :: f4 :: _ => finishRecord f0 f1 f2 f3 f4
  | _ => .error .malformedRecord

/-- The claim's side condition: a string field containing no comma. -/
def commaFreeS (s : String) : Prop := ',' ∉ s.toList

instance (s : String) : Decidable (commaFreeS s) := by
  unfold commaFreeS; infer_instance

/-! ## Tokenizer lemmas -/

theorem tokenizeAux_ne_nil (l : List Char) : ∀ acc, tokenizeAux l acc ≠ [] := by
  induction l with
  | nil => intro acc; simp [tokenizeAux]
  | cons c cs ih =>
    intro acc
    by_cases hc : c = ','
    · simp [tokenizeAux, hc]
    · simpa [tokenizeAux, hc] using ih (acc ++ [c])

theorem tokenize_eq_nil_iff (l : List Char) : tokenize l = [] ↔ l = [] := by
  unfold tokenize
  by_cases h : l = [] <;> simp [h, tokenizeAux_ne_nil]

theorem tokStr_eq_nil_iff (line : String) : tokStr line = [] ↔ line = "" := by
  unfold tokStr
  rw [List.map_eq_nil_iff, tokenize_eq_nil_iff]
  constructor
  · intro h
    cases line with
    | mk data =>
      simp only [String.toList] at h
      simp [h]
  · intro h
    simp [h]

theorem tokenizeAux_no_comma (u : List Char) :
    ∀ acc, ',' ∉ u → tokenizeAux u acc = [acc ++ u] := by
  induction u with
  | nil => intro acc _; simp [tokenizeAux]
  | cons c cs ih =>
    intro acc h
    rw [List.mem_cons, not_or] at h
    rw [tokenizeAux, if_neg (fun hc => h.1 hc.symm), ih _ h.2]
    simp

theorem tokenizeAux_comma_split (u rest : List Char) :
    ∀ acc, ',' ∉ u → rest ≠ [] →
      tokenizeAux (u ++ ',' :: rest) acc = (acc ++ u) :: tokenizeAux rest [] := by
  induction u with
  | nil => intro acc _ hr; simp [tokenizeAux, hr]
  | cons c cs ih =>
    intro acc h hr
    rw [List.mem_cons, not_or] at h
    rw [List.cons_append, tokenizeAux, if_neg (fun hc => h.1 hc.symm), ih _ h.2 hr]
    simp

theorem tokenizeAux_comma_end (u : List Char) :
    ∀ acc, ',' ∉ u → tokenizeAux (u ++ [',']) acc = [acc ++ u] := by
  induction u with
  | nil => intro acc _; simp [tokenizeAux]
  | cons c cs ih =>
    intro acc h
    rw [List.mem_cons, not_or] at h
    rw [List.cons_append, tokenizeAux, if_neg (fun hc => h.1 hc.symm), ih _ h.2]
    simp

theorem tokenize_join5 (x1 x2 x3 x4 x5 : List Char)
    (h1 : ',' ∉ x1) (h2 : ',' ∉ x2) (h3 : ',' ∉ x3) (h4 : ',' ∉ x4) (h5 : ',' ∉ x5)
    (hne : x5 ≠ []) :
    tokenize (x1 ++ ',' :: (x2 ++ ',' :: (x3 ++ ',' :: (x4 ++ ',' :: x5))))
      = [x1, x2, x3, x4, x5] := by
  have hr : ∀ y rest : List Char, y ++ ',' :: rest ≠ [] := by simp
  rw [tokenize, if_neg (hr _ _)]
  rw [tokenizeAux_comma_split _ _ _ h1 (hr _ _)]
  rw [tokenizeAux_comma_split _ _ _ h2 (hr _ _)]
  rw [tokenizeAux_comma_split _ _ _ h3 (hr _ _)]
  rw [tokenizeAux_comma_split _ _ _ h4 hne]
  rw [tokenizeAux_no_comma _ _ h5]
  simp

theorem tokenize_join4_trailing (x1 x2 x3 x4 : List Char)
    (h1 : ',' ∉ x1) (h2 : ',' ∉ x2) (h3 : ',' ∉ x3) (h4 : ',' ∉ x4) :
    tokenize (x1 ++ ',' :: (x2 ++ ',' :: (x3 ++ ',' :: (x4 ++ [',']))))
      = [x1, x2, x3, x4] := by
  have hr : ∀ y rest : List Char, y ++ ',' :: rest ≠ [] := by simp
  have h4r : x4 ++ [','] ≠ [] := by simp
  rw [tokenize, if_neg (hr _ _)]
  rw [tokenizeAux_comma_split _ _ _ h1 (hr _ _)]
  rw [tokenizeAux_comma_split _ _ _ h2 (hr _ _)]
  rw [tokenizeAux_comma_split _ _ _ h3 h4r]
  rw [tokenizeAux_comma_end _ _ h4]
  simp

/-! ## Parser lemmas -/

theorem parseE_of_ne_empty (line : String) (h : line ≠ "") :
    parseE line = parseCore (tokStr line) := by
  rw [parseE, if_neg h]

theorem parseCore_short (ts : List String) (h : ts.length < 4) :
    parseCore ts = .error .malformedRecord := by
  rw [parseCore, if_pos h]

theorem parseCore_five (t0 t1 t2 t3 t4 : String) (rest : List String) :
    parseCore (t0 :: t1 :: t2 :: t3 :: t4 :: rest) = finishRecord t0 t1 t2 t3 t4 := by
  have h4 : ¬ (t0 :: t1 :: t2 :: t3 :: t4 :: rest).length < 4 := by
    simp only [List.length_cons]; omega
  have h5 : (t0 :: t1 :: t2 :: t3 :: t4 :: rest).length > 4 := by
    simp only [List.length_cons]; omega
  rw [parseCore, if_neg h4, finishRecord]
  simp only [h5, if_true, List.getD_cons_zero, List.getD_cons_succ]

theorem parseCore_four (t0 t1 t2 t3 : String) :
    parseCore [t0, t1, t2, t3] = finishRecord t0 t0 t1 t2 t3 := by
  have h4 : ¬ ([t0, t1, t2, t3].length < 4) := by simp
  have h5 : ¬ ([t0, t1, t2, t3].length > 4) := by simp
  have h3 : [t0, t1, t2, t3].length > 3 := by simp
  rw [parseCore, if_neg h4, finishRecord]
  simp only [h5, h3, if_false, if_true, List.getD_cons_zero, List.getD_cons_succ]

theorem finishRecord_of_stod_none (i m c p s : String) (hm : stodE p = none) :
    finishRecord i m c p s = .error .invalidNumber := by
  rw [finishRecord, hm]

theorem finishRecord_of_stod_some (i m c p s : String) (v : ℚ)
    (hm : stodE p = some (.val v)) :
    finishRecord i m c p s =
      (if validate { id := i, model := m, condition := c, pricePerDay := v, status := s }
       then .ok (some { id := i, model := m, condition := c, pricePerDay := v, status := s })
       else .error .validationFailed) := by
  rw [finishRecord, hm]

theorem finishRecord_of_stod_nonfinite (i m c p s : String) (w : StodVal)
    (hm : stodE p = some w) (hw : ∀ q : ℚ, w ≠ .val q) :
    finishRecord i m c p s = .error .validationFailed := by
  rw [finishRecord, hm]
  cases w with
  | val q => exact absurd rfl (hw q)
  | posInf => rfl
  | negInf => rfl
  | nan => rfl

theorem validate_eq_true_iff (r : CarRecord) :
    validate r = true ↔
      ¬ r.id = "" ∧ ¬ r.model = "" ∧ r.condition ∈ allowedConditions ∧ 0 < r.pricePerDay := by
  unfold validate
  by_cases h1 : r.id = "" ∨ r.model = ""
  · rw [if_pos h1]
    simp only [Bool.false_eq_true, false_iff]
    intro hh
    rcases h1 with h | h
    · exact hh.1 h
    · exact hh.2.1 h
  · rw [if_neg h1]
    by_cases h2 : r.condition ∈ allowedConditions
    · rw [if_neg (by simpa using h2)]
      by_cases h3 : r.pricePerDay ≤ 0
      · rw [if_pos h3]
        simp only [Bool.false_eq_true, false_iff]
        intro hh
        exact absurd hh.2.2.2 (not_lt.mpr h3)
      · rw [if_neg h3]
        push_neg at h1
        simp [h1.1, h1.2, h2, not_le.mp h3]
    · rw [if_pos (by simpa using h2)]
      simp only [Bool.false_eq_true, false_iff]
      intro hh
      exact h2 hh.2.2.1

/-- Inverts a successful `finishRecord`: the record is the assembled one
and it passed the validator. -/
theorem finishRecord_ok_inversion (i m c p s : String) (r : CarRecord)
    (h : finishRecord i m c p s = .ok (some r)) :
    validate r = true ∧ r.id = i ∧ r.model = m ∧ r.condition = c ∧ r.status = s ∧
      stodM p = some r.pricePerDay := by
  cases hstod : stodE p with
  | none => rw [finishRecord_of_stod_none _ _ _ _ _ hstod] at h; simp at h
  | some w =>
    cases w with
    | posInf => rw [finishRecord, hstod] at h; simp at h
    | negInf => rw [finishRecord, hstod] at h; simp at h
    | nan => rw [finishRecord, hstod] at h; simp at h
    | val v =>
      rw [finishRecord_of_stod_some _ _ _ _ _ _ hstod] at h
      by_cases hval :
          validate { id := i, model := m, condition := c, pricePerDay := v, status := s } = true
      · rw [if_pos hval] at h
        have hr : ({ id := i, model := m, condition := c, pricePerDay := v, status := s }
            : CarRecord) = r := by
          have := (Except.ok.injEq _ _).mp h
          exact (Option.some.injEq _ _).mp this
        rw [← hr]
        refine ⟨hval, rfl, rfl, rfl, rfl, ?_⟩
        unfold stodM
        rw [hstod]
      · rw [if_neg (by simpa using hval)] at h
        simp at h

/-- Every successful parse goes through the final `validate` guard: the
returned record is the one assembled from the tokens and satisfies the
validator. -/
theorem parseCore_ok_inversion (ts : List String) (r : CarRecord)
    (h : parseCore ts = .ok (some r)) :
    validate r = true ∧ 4 ≤ ts.length ∧
      r.status = (if ts.length > 4 then ts.getD 4 "" else ts.getD 3 "") := by
  match ts with
  | [] => rw [parseCore_short _ (by simp)] at h; simp at h
  | [t0] => rw [parseCore_short _ (by simp)] at h; simp at h
  | [t0, t1] => rw [parseCore_short _ (by simp)] at h; simp at h
  | [t0, t1, t2] => rw [parseCore_short _ (by simp)] at h; simp at h
  | [t0, t1, t2, t3] =>
    rw [parseCore_four] at h
    have hi := finishRecord_ok_inversion _ _ _ _ _ _ h
    refine ⟨hi.1, by simp, ?_⟩
    rw [if_neg (by simp)]
    exact hi.2.2.2.2.1
  | t0 :: t1 :: t2 :: t3 :: t4 :: rest =>
    rw [parseCore_five] at h
    have hi := finishRecord_ok_inversion _ _ _ _ _ _ h
    refine ⟨hi.1, by simp, ?_⟩
    rw [if_pos (by simp only [List.length_cons]; omega)]
    exact hi.2.2.2.2.1

theorem parseE_ok_inversion (line : String) (r : CarRecord)
    (h : parseE line = .ok (some r)) :
    validate r = true ∧ 4 ≤ (tokStr line).length ∧
      r.status =
        (if (tokStr line).length > 4 then (tokStr line).getD 4 "" else (tokStr line).getD 3 "") := by
  by_cases hline : line = ""
  · rw [hline] at h
    exact absurd h (by simp [parseE])
  · rw [parseE_of_ne_empty line hline] at h
    exact parseCore_ok_inversion _ _ h

/-! ## Evaluation helpers for `stodM` and comma-freeness of `fmtDouble` -/

theorem stodE_dec_of (s : String) (p : DecParts) (v : ℚ)
    (h1 : scanStod s.toList = .dec p) (h2 : partsVal p = v) : stodE s = some (.val v) := by
  rw [stodE, h1]
  show some (StodVal.val (partsVal p)) = some (StodVal.val v)
  rw [h2]

theorem stodM_some_iff (s : String) (v : ℚ) :
    stodM s = some v ↔ stodE s = some (.val v) := by
  unfold stodM
  cases h : stodE s with
  | none => simp
  | some w => cases w <;> simp

theorem stodM_eq_of (s : String) (p : DecParts) (v : ℚ)
    (h1 : scanStod s.toList = .dec p) (h2 : partsVal p = v) : stodM s = some v :=
  (stodM_some_iff s v).mpr (stodE_dec_of s p v h1 h2)

theorem comma_ne_digitChar (k : ℕ) (hk : k < 10) : Char.ofNat (48 + k) ≠ ',' := by
  interval_cases k <;> decide

theorem comma_not_mem_natDigitsAux (fuel : ℕ) : ∀ n, ',' ∉ natDigitsAux fuel n := by
  induction fuel with
  | zero => intro n; simp [natDigitsAux]
  | succ f ih =>
    intro n
    rw [natDigitsAux]
    by_cases h : n < 10
    · rw [if_pos h]
      intro hm
      rcases List.mem_cons.mp hm with h1 | h1
      · exact comma_ne_digitChar n h h1.symm
      · simp at h1
    · rw [if_neg h]
      intro hm
      rcases List.mem_append.mp hm with h1 | h1
      · exact ih _ h1
      · rcases List.mem_cons.mp h1 with h2 | h2
        · exact comma_ne_digitChar _ (Nat.mod_lt _ (by norm_num)) h2.symm
        · simp at h2

theorem comma_not_mem_natDigits (n : ℕ) : ',' ∉ natDigits n :=
  comma_not_mem_natDigitsAux _ n

theorem comma_not_mem_padZeros (k : ℕ) (l : List Char) (h : ',' ∉ l) :
    ',' ∉ padZeros k l := by
  unfold padZeros
  intro hm
  rcases List.mem_append.mp hm with h1 | h1
  · exact absurd (List.eq_of_mem_replicate h1) (by decide)
  · exact h h1

theorem comma_not_mem_strip (l : List Char) (h : ',' ∉ l) :
    ',' ∉ stripTrailingZeros l := by
  unfold stripTrailingZeros
  intro hm
  exact h (List.mem_reverse.mp ((List.dropWhile_sublist _).mem (List.mem_reverse.mp hm)))

theorem comma_not_mem_fmtFixed (X : ℤ) (ds : List Char) (h : ',' ∉ ds) :
    ',' ∉ fmtFixed X ds := by
  unfold fmtFixed
  have htake : ∀ k, ',' ∉ ds.take k := fun k hm => h ((List.take_sublist _ _).mem hm)
  have hdrop : ∀ k, ',' ∉ stripTrailingZeros (ds.drop k) := fun k =>
    comma_not_mem_strip _ (fun hm => h ((List.drop_sublist _ _).mem hm))
  dsimp only
  split
  · split
    · exact htake _
    · intro hm
      rcases List.mem_append.mp hm with h1 | h1
      · exact htake _ h1
      · rcases List.mem_cons.mp h1 with h2 | h2
        · simp at h2
        · exact hdrop _ h2
  · intro hm
    rcases List.mem_cons.mp hm with h1 | h1
    · simp at h1
    · rcases List.mem_cons.mp h1 with h2 | h2
      · simp at h2
      · rcases List.mem_append.mp h2 with h3 | h3
        · exact absurd (List.eq_of_mem_replicate h3) (by decide)
        · exact comma_not_mem_strip _ h h3

theorem comma_not_mem_fmtSci (X : ℤ) (ds : List Char) (h : ',' ∉ ds) :
    ',' ∉ fmtSci X ds := by
  unfold fmtSci
  have htake : ',' ∉ ds.take 1 := fun hm => h ((List.take_sublist _ _).mem hm)
  have htail : ',' ∉ stripTrailingZeros ds.tail :=
    comma_not_mem_strip _ (fun hm => h ((List.tail_sublist _).mem hm))
  dsimp only
  intro hm
  rcases List.mem_append.mp hm with h1 | h1
  · split at h1
    · exact htake h1
    · rcases List.mem_append.mp h1 with h2 | h2
      · exact htake h2
      · rcases List.mem_cons.mp h2 with h3 | h3
        · simp at h3
        · exact htail h3
  · rcases List.mem_cons.mp h1 with h2 | h2
    · simp at h2
    · rcases List.mem_cons.mp h2 with h3 | h3
      · split at h3 <;> simp at h3
      · exact comma_not_mem_padZeros _ _ (comma_not_mem_natDigits _) h3

theorem comma_not_mem_fmtCore (n d : ℕ) : ',' ∉ fmtCore n d := by
  have hgen : ∀ (X : ℤ) (m : ℕ),
      ',' ∉ (if -4 ≤ X ∧ X < 6 then fmtFixed X (padZeros 6 (natDigits m))
             else fmtSci X (padZeros 6 (natDigits m))) := by
    intro X m
    have hds := comma_not_mem_padZeros 6 _ (comma_not_mem_natDigits m)
    split
    · exact comma_not_mem_fmtFixed _ _ hds
    · exact comma_not_mem_fmtSci _ _ hds
  exact hgen _ _

theorem commaFreeS_fmtDouble (q : ℚ) : commaFreeS (fmtDouble q) := by
  unfold fmtDouble commaFreeS
  split
  · decide
  · split
    · intro hm
      rcases List.mem_cons.mp hm with h1 | h1
      · simp at h1
      · exact comma_not_mem_fmtCore _ _ h1
    · exact comma_not_mem_fmtCore _ _

/-! ## Serializer-to-tokenizer bridge -/

theorem toList_eq_nil_iff (s : String) : s.toList = [] ↔ s = "" := by
  constructor
  · intro h
    cases s with
    | mk data =>
      simp only [String.toList] at h
      simp [h]
  · intro h
    simp [h]

theorem toList_join5 (a b c p s : String) :
    (a ++ "," ++ b ++ "," ++ c ++ "," ++ p ++ "," ++ s).toList
      = a.toList ++ ',' :: (b.toList ++ ',' :: (c.toList ++ ',' :: (p.toList ++ ',' :: s.toList))) := by
  have hc : (("," : String)).toList = [','] := rfl
  simp only [String.toList, String.data_append] at *
  simp [hc]

theorem toList_join4_trailing (a b c d : String) :
    (a ++ "," ++ b ++ "," ++ c ++ "," ++ d ++ ",").toList
      = a.toList ++ ',' :: (b.toList ++ ',' :: (c.toList ++ ',' :: (d.toList ++ [',']))) := by
  have hc : (("," : String)).toList = [','] := rfl
  simp only [String.toList, String.data_append] at *
  simp [hc]

theorem mk_toList (s : String) : (⟨s.toList⟩ : String) = s := rfl

theorem tokStr_join5 (a b c p s : String)
    (ha : commaFreeS a) (hb : commaFreeS b) (hc : commaFreeS c) (hp : commaFreeS p)
    (hs : commaFreeS s) (hne : s ≠ "") :
    tokStr (a ++ "," ++ b ++ "," ++ c ++ "," ++ p ++ "," ++ s) = [a, b, c, p, s] := by
  have hsl : s.toList ≠ [] := fun h => hne ((toList_eq_nil_iff s).mp h)
  unfold tokStr
  rw [toList_join5, tokenize_join5 _ _ _ _ _ ha hb hc hp hs hsl]
  simp [mk_toList]

theorem tokStr_join4_trailing (a b c d : String)
    (ha : commaFreeS a) (hb : commaFreeS b) (hc : commaFreeS c) (hd : commaFreeS d) :
    tokStr (a ++ "," ++ b ++ "," ++ c ++ "," ++ d ++ ",") = [a, b, c, d] := by
  unfold tokStr
  rw [toList_join4_trailing, tokenize_join4_trailing _ _ _ _ ha hb hc hd]
  simp [mk_toList]

theorem join5_ne_empty (a b c p s : String) :
    a ++ "," ++ b ++ "," ++ c ++ "," ++ p ++ "," ++ s ≠ "" := by
  intro h
  have := congrArg String.toList h
  rw [toList_join5] at this
  simp at this

theorem join4_trailing_ne_empty (a b c d : String) :
    a ++ "," ++ b ++ "," ++ c ++ "," ++ d ++ "," ≠ "" := by
  intro h
  have := congrArg String.toList h
  rw [toList_join4_trailing] at this
  simp at this

theorem serializeE_ok (r : CarRecord) (h : validate r = true) :
    serializeE r =
      .ok (r.id ++ "," ++ r.model ++ "," ++ r.condition ++ ","
            ++ fmtDouble r.pricePerDay ++ "," ++ r.status) := by
  rw [serializeE, if_pos h]

/-- The heart of the amended round-trip: for a validator-passing record
whose string fields are comma-free, whose status is non-empty and whose
price survives default stream formatting, parsing the serialized line
yields the record back. -/
theorem roundtrip_of (r : CarRecord) (hval : validate r = true)
    (h1 : commaFreeS r.id) (h2 : commaFreeS r.model) (h3 : commaFreeS r.condition)
    (h4 : commaFreeS r.status) (hne : r.status ≠ "")
    (hstod : stodM (fmtDouble r.pricePerDay) = some r.pricePerDay) :
    parseE (r.id ++ "," ++ r.model ++ "," ++ r.condition ++ ","
            ++ fmtDouble r.pricePerDay ++ "," ++ r.status) = .ok (some r) := by
  have hfmt : commaFreeS (fmtDouble r.pricePerDay) := commaFreeS_fmtDouble _
  rw [parseE_of_ne_empty _ (join5_ne_empty _ _ _ _ _)]
  rw [tokStr_join5 _ _ _ _ _ h1 h2 h3 hfmt h4 hne]
  rw [parseCore_five, finishRecord_of_stod_some _ _ _ _ _ _ ((stodM_some_iff _ _).mp hstod)]
  have heta : (⟨r.id, r.model, r.condition, r.pricePerDay, r.status⟩ : CarRecord) = r := rfl
  rw [heta, if_pos hval]

/-! ## Repository lemmas -/

theorem rfind_eq_mfind (repo : Repo) (k : String) : rfind repo k = mfind repo.records k := rfl

theorem mfind_append (m1 m2 : List (String × CarRecord)) (k : String) :
    mfind (m1 ++ m2) k = (mfind m1 k).or (mfind m2 k) := by
  unfold mfind
  rw [List.find?_append]
  cases List.find? (fun p => p.1 = k) m1 <;> simp [Option.or]

theorem find?_map_subst_ne (m : List (String × CarRecord)) (k k2 : String) (v : CarRecord)
    (h : ¬ k = k2) :
    List.find? (fun p => p.1 = k2) (m.map (fun p => if p.1 = k then (k, v) else p))
      = List.find? (fun p => p.1 = k2) m := by
  induction m with
  | nil => rfl
  | cons p rest ih =>
    by_cases hp : p.1 = k
    · simp only [List.map_cons, if_pos hp, List.find?_cons]
      have h1 : ((k, v).1 = k2) = False := by simp [h]
      have h2 : (p.1 = k2) = False := by simp [hp, h]
      simp [h1, h2, ih]
    · simp only [List.map_cons, if_neg hp, List.find?_cons, ih]

theorem find?_map_subst_self (m : List (String × CarRecord)) (k : String) (v : CarRecord)
    (hany : m.any (fun p => p.1 = k) = true) :
    List.find? (fun p => p.1 = k) (m.map (fun p => if p.1 = k then (k, v) else p))
      = some (k, v) := by
  induction m with
  | nil => simp at hany
  | cons p rest ih =>
    by_cases hp : p.1 = k
    · simp [List.find?_cons, if_pos hp]
    · have hrest : rest.any (fun p => p.1 = k) = true := by
        simp only [List.any_cons] at hany
        rcases Bool.or_eq_true_iff.mp hany with h1 | h1
        · exact absurd (of_decide_eq_true h1) hp
        · exact h1
      simp only [List.map_cons, if_neg hp, List.find?_cons]
      have h2 : (p.1 = k) = False := by simp [hp]
      simp [h2, ih hrest]

theorem mfind_mapInsert (m : List (String × CarRecord)) (k k2 : String) (v : CarRecord) :
    mfind (mapInsert m k v) k2 = if k = k2 then some v else mfind m k2 := by
  unfold mapInsert
  by_cases hany : m.any (fun p => p.1 = k) = true
  · rw [if_pos hany]
    by_cases hk : k = k2
    · subst hk
      unfold mfind
      rw [find?_map_subst_self m k v hany]
      simp
    · unfold mfind
      rw [find?_map_subst_ne m k k2 v hk, if_neg hk]
  · rw [if_neg hany]
    rw [mfind_append]
    by_cases hk : k = k2
    · subst hk
      have hnone : mfind m k = none := by
        unfold mfind
        rw [List.find?_eq_none.mpr]
        · rfl
        · intro p hp hpk
          exact hany (List.any_eq_true.mpr ⟨p, hp, hpk⟩)
      rw [hnone, if_pos rfl]
      simp [mfind]
    · have hone : mfind [(k, v)] k2 = none := by
        simp [mfind, List.find?_cons, hk]
      rw [hone, if_neg hk, Option.or_none]

theorem keysOf_mapInsert_any (m : List (String × CarRecord)) (k : String) (v : CarRecord)
    (hany : m.any (fun p => p.1 = k) = true) :
    keysOf (mapInsert m k v) = keysOf m := by
  unfold mapInsert keysOf
  rw [if_pos hany, List.map_map]
  apply List.map_congr_left
  intro p _
  by_cases hp : p.1 = k
  · simp [hp]
  · simp [hp]

theorem nodup_keys_mapInsert (m : List (String × CarRecord)) (k : String) (v : CarRecord)
    (h : (keysOf m).Nodup) : (keysOf (mapInsert m k v)).Nodup := by
  by_cases hany : m.any (fun p => p.1 = k) = true
  · rw [keysOf_mapInsert_any m k v hany]
    exact h
  · unfold mapInsert keysOf
    rw [if_neg hany, List.map_append, List.nodup_append]
    refine ⟨h, by simp, ?_⟩
    intro x hx hx2
    simp only [List.map_cons, List.map_nil, List.mem_cons, List.not_mem_nil, or_false] at hx2
    subst hx2
    rcases List.mem_map.mp hx with ⟨p, hp, hpk⟩
    exact hany (List.any_eq_true.mpr ⟨p, hp, by simp [hpk]⟩)

theorem lastWrittenIn_append (A B : List CarRecord) (k : String) :
    lastWrittenIn (A ++ B) k = (lastWrittenIn B k).or (lastWrittenIn A k) := by
  unfold lastWrittenIn
  rw [List.reverse_append, List.find?_append]

theorem lastWrittenIn_cons (r : CarRecord) (rest : List CarRecord) (k : String) :
    lastWrittenIn (r :: rest) k
      = (lastWrittenIn rest k).or (if r.id = k then some r else none) := by
  unfold lastWrittenIn
  rw [List.reverse_cons, List.find?_append]
  congr 1
  by_cases h : r.id = k <;> simp [List.find?_cons, h]

theorem mfind_foldInsert (rs : List CarRecord) :
    ∀ (m : List (String × CarRecord)) (k : String),
      mfind (rs.foldl (fun m r => mapInsert m r.id r) m) k
        = (lastWrittenIn rs k).or (mfind m k) := by
  induction rs with
  | nil => intro m k; simp [lastWrittenIn]
  | cons r rest ih =>
    intro m k
    rw [List.foldl_cons, ih, lastWrittenIn_cons, Option.or_assoc]
    congr 1
    rw [mfind_mapInsert]
    by_cases h : r.id = k <;> simp [h]

theorem nodup_keys_foldInsert (rs : List CarRecord) :
    ∀ (m : List (String × CarRecord)), (keysOf m).Nodup →
      (keysOf (rs.foldl (fun m r => mapInsert m r.id r) m)).Nodup := by
  induction rs with
  | nil => intro m h; exact h
  | cons r rest ih =>
    intro m h
    rw [List.foldl_cons]
    exact ih _ (nodup_keys_mapInsert m r.id r h)

theorem rfind_applyOp (repo : Repo) (op : RepoOp) (k : String) :
    rfind (applyOp repo op) k = (lastWrittenIn (opRecords op) k).or (rfind repo k) := by
  cases op with
  | up r =>
    show mfind (mapInsert repo.records r.id r) k = _
    rw [mfind_mapInsert, show opRecords (RepoOp.up r) = [r] from rfl, lastWrittenIn_cons]
    by_cases h : r.id = k <;> simp [h, lastWrittenIn, rfind_eq_mfind]
  | bulk rs =>
    show mfind (rs.foldl (fun m r => mapInsert m r.id r) repo.records) k = _
    rw [mfind_foldInsert]
    rfl

theorem rfind_applyOps (ops : List RepoOp) :
    ∀ (repo : Repo) (k : String),
      rfind (applyOps repo ops) k
        = (lastWrittenIn (ops.flatMap opRecords) k).or (rfind repo k) := by
  induction ops with
  | nil => intro repo k; simp [applyOps, lastWrittenIn]
  | cons op rest ih =>
    intro repo k
    show rfind (applyOps (applyOp repo op) rest) k = _
    rw [ih, rfind_applyOp]
    rw [show (op :: rest).flatMap opRecords = opRecords op ++ rest.flatMap opRecords by
      simp [List.flatMap]]
    rw [lastWrittenIn_append, Option.or_assoc]

theorem nodup_keys_applyOps (ops : List RepoOp) :
    ∀ (repo : Repo), (keysOf repo.records).Nodup →
      (keysOf (applyOps repo ops).records).Nodup := by
  induction ops with
  | nil => intro repo h; exact h
  | cons op rest ih =>
    intro repo h
    refine ih _ ?_
    cases op with
    | up r => exact nodup_keys_mapInsert _ _ _ h
    | bulk rs => exact nodup_keys_foldInsert rs _ h

theorem rfind_mkRepo (loaded : List CarRecord) (k : String) :
    rfind (mkRepo loaded) k = lastWrittenIn loaded k := by
  rw [rfind_eq_mfind]
  show mfind (loaded.foldl (fun m r => mapInsert m r.id r) []) k = _
  rw [mfind_foldInsert]
  simp [mfind]

theorem nodup_keys_mkRepo (loaded : List CarRecord) :
    (keysOf (mkRepo loaded).records).Nodup := by
  exact nodup_keys_foldInsert loaded [] (by simp [keysOf])

/-! ## Flush lemmas -/

theorem flush_characterization (repo : Repo) :
    flush repo =
      (if repo.dirty then
        { repo with persistLog := repo.persistLog ++ [allRecords repo], dirty := false }
       else repo) := by
  unfold flush
  by_cases h : repo.dirty <;> simp [h]

theorem flush_flush (repo : Repo) : flush (flush repo) = flush repo := by
  by_cases h : repo.dirty
  · rw [flush_characterization repo, if_pos h, flush_characterization]
    simp
  · rw [flush_characterization repo, if_neg h, flush_characterization, if_neg h]

/-! ## Transactional writer lemmas -/

theorem writeTrace_target_cases (init : FsState) (lines : List String) :
    ∀ s ∈ writeTrace init lines,
      s.target = init.target ∨ s.target = none ∨ s.target = some lines := by
  intro s hs
  unfold writeTrace at hs
  simp only [List.mem_append, List.mem_cons, List.mem_map, List.mem_range,
    List.not_mem_nil, or_false] at hs
  rcases hs with (h | ⟨k, _, h⟩) | h | h
  · subst h; left; rfl
  · rw [← h]; left; rfl
  · rw [h]
    split
    · right; left; rfl
    · left; rfl
  · rw [h]; right; right; rfl

theorem writeTrace_before_remove (init : FsState) (lines : List String) :
    ∀ s ∈ (writeTrace init lines).take (lines.length + 2), s.target = init.target := by
  intro s hs
  unfold writeTrace at hs
  rw [List.cons_append] at hs
  rw [show lines.length + 2 = (lines.length + 1) + 1 from rfl, List.take_succ_cons,
    List.take_left' (by simp)] at hs
  rcases List.mem_cons.mp hs with h | h
  · subst h; rfl
  · rcases List.mem_map.mp h with ⟨k, _, hk⟩
    rw [← hk]

theorem windowStates_eq (init : FsState) (lines : List String) :
    windowStates init lines =
      [⟨init.target, some lines⟩,
       if init.target.isSome then ⟨none, some lines⟩ else ⟨init.target, some lines⟩] := by
  unfold windowStates writeTrace
  rw [List.cons_append, List.drop_succ_cons]
  rw [List.range_succ, List.map_append, List.append_assoc]
  rw [List.drop_left' (by simp)]
  simp only [List.map_cons, List.map_nil, List.take_length, List.cons_append, List.nil_append]
  by_cases h : init.target.isSome
  · simp [List.dropLast, h]
  · simp [List.dropLast, h]

theorem windowStates_spec (init : FsState) (lines : List String) :
    ∀ s ∈ windowStates init lines,
      (s.target = init.target ∨ s.target = none) ∧ s.tmp = some lines := by
  intro s hs
  rw [windowStates_eq] at hs
  rcases List.mem_cons.mp hs with h | h
  · subst h; exact ⟨Or.inl rfl, rfl⟩
  · rcases List.mem_cons.mp h with h2 | h2
    · subst h2
      split
      · exact ⟨Or.inr rfl, rfl⟩
      · exact ⟨Or.inl rfl, rfl⟩
    · simp at h2

/-! ## Streaming and ingestion lemmas -/

theorem streamFold_eq_foldl {α : Type} (lines : List String) (f : α → CarRecord → α) :
    ∀ a : α, streamFold lines f a = (parsedRecords lines).foldl f a := by
  induction lines with
  | nil => intro a; rfl
  | cons line rest ih =>
    intro a
    unfold streamFold parsedRecords
    rw [List.foldl_cons, List.filterMap_cons]
    cases h : parseE line with
    | ok o =>
      cases o with
      | none => simpa [h, streamFold, parsedRecords] using ih a
      | some r => simpa [h, streamFold, parsedRecords] using ih (f a r)
    | error e => simpa [h, streamFold, parsedRecords] using ih a

/-- The loop invariant of chunked ingestion: the buffer holds the records
accumulated since the last batch boundary, and the batch count is the
number of completed chunks. -/
theorem ingestStep_foldl_inv (C : ℕ) (hC : 0 < C) (rs : List CarRecord) :
    ∀ st : IngestState,
      st.buffer.length = st.metrics.processedRecords % C →
      st.metrics.batches = st.metrics.processedRecords / C →
      (rs.foldl (ingestStep C) st).metrics.processedRecords
          = st.metrics.processedRecords + rs.length ∧
        (rs.foldl (ingestStep C) st).buffer.length
          = (rs.foldl (ingestStep C) st).metrics.processedRecords % C ∧
        (rs.foldl (ingestStep C) st).metrics.batches
          = (rs.foldl (ingestStep C) st).metrics.processedRecords / C := by
  induction rs with
  | nil => intro st h1 h2; exact ⟨rfl, h1, h2⟩
  | cons r rest ih =>
    intro st h1 h2
    rw [List.foldl_cons]
    have hmodlt : st.metrics.processedRecords % C < C :=
      Nat.mod_lt _ hC
    set p := st.metrics.processedRecords with hp
    by_cases hfull : C ≤ (st.buffer ++ [r]).length
    · have hlen : (st.buffer ++ [r]).length = p % C + 1 := by
        simp [h1]
      have hpm : p % C = C - 1 := by omega
      have hdm := Nat.div_add_mod p C
      set q := p / C with hq
      have hsucc : p + 1 = C * (q + 1) := by
        rw [Nat.mul_add, Nat.mul_one]
        omega
      have hstep : ingestStep C st r =
          { buffer := []
            metrics := { processedRecords := p + 1, batches := st.metrics.batches + 1 }
            repo := flush (bulkUpsert st.repo (st.buffer ++ [r])) } := by
        unfold ingestStep
        rw [if_pos hfull]
      rw [hstep]
      have hmod : (p + 1) % C = 0 := by
        rw [hsucc]; exact Nat.mul_mod_right C (q + 1)
      have hdiv : (p + 1) / C = q + 1 := by
        rw [hsucc]; exact Nat.mul_div_cancel_left _ hC
      have := ih
        { buffer := []
          metrics := { processedRecords := p + 1, batches := st.metrics.batches + 1 }
          repo := flush (bulkUpsert st.repo (st.buffer ++ [r])) }
        (by simpa using hmod.symm) (by simp [hdiv, h2])
      refine ⟨?_, this.2.1, this.2.2⟩
      rw [this.1]
      simp only [List.length_cons]
      omega
    · have hlen : (st.buffer ++ [r]).length = p % C + 1 := by
        simp [h1]
      have hlt : p % C + 1 < C := by omega
      have hdm := Nat.div_add_mod p C
      set q := p / C with hq
      have hsucc : p + 1 = C * q + (p % C + 1) := by omega
      have hstep : ingestStep C st r =
          { st with
            buffer := st.buffer ++ [r]
            metrics := { st.metrics with processedRecords := p + 1 } } := by
        unfold ingestStep
        rw [if_neg hfull]
      rw [hstep]
      have hmod : (p + 1) % C = p % C + 1 := by
        rw [hsucc, Nat.mul_add_mod, Nat.mod_eq_of_lt hlt]
      have hdiv : (p + 1) / C = q := by
        rw [hsucc, Nat.mul_add_div hC, Nat.div_eq_of_lt hlt, Nat.add_zero]
      have := ih
        { st with
          buffer := st.buffer ++ [r]
          metrics := { st.metrics with processedRecords := p + 1 } }
        (by simpa [hlen] using hmod.symm) (by simpa [hdiv] using h2)
      refine ⟨?_, this.2.1, this.2.2⟩
      rw [this.1]
      simp only [List.length_cons]
      omega

/-- Ceiling division identity used by the batch count. -/
theorem ceil_div_eq (N C : ℕ) (hC : 0 < C) :
    (N + C - 1) / C = N / C + (if N % C = 0 then 0 else 1) := by
  have hdm := Nat.div_add_mod N C
  have hmodlt : N % C < C := Nat.mod_lt _ hC
  set q := N / C with hq
  by_cases h : N % C = 0
  · rw [if_pos h]
    have heq : N + C - 1 = C * q + (C - 1) := by omega
    rw [heq, Nat.mul_add_div hC, Nat.div_eq_of_lt (by omega), Nat.add_zero]
  · rw [if_neg h]
    have heq : N + C - 1 = C * (q + 1) + (N % C - 1) := by
      rw [Nat.mul_add, Nat.mul_one]
      omega
    rw [heq, Nat.mul_add_div hC, Nat.div_eq_of_lt (by omega), Nat.add_zero]

/-- Full characterization of the metrics `ingest` reports for a positive
chunk size. -/
theorem ingest_metrics (repo : Repo) (lines : List String) (C : ℕ) (hC : 0 < C) :
    (ingest repo lines C).map (fun x => (x.1.processedRecords, x.1.batches))
      = .ok ((parsedRecords lines).length,
             ((parsedRecords lines).length + C - 1) / C) := by
  unfold ingest
  rw [if_neg (Nat.pos_iff_ne_zero.mp hC)]
  set st0 : IngestState :=
    { buffer := [], metrics := { processedRecords := 0, batches := 0 }, repo := repo } with hst0
  rw [streamFold_eq_foldl]
  set N := (parsedRecords lines).length with hN
  have hinv := ingestStep_foldl_inv C hC (parsedRecords lines) st0 (by simp [hst0]) (by simp [hst0])
  set stf := (parsedRecords lines).foldl (ingestStep C) st0 with hstf
  have hproc : stf.metrics.processedRecords = N := by
    rw [hinv.1]; simp [hst0]
  have hbuf : stf.buffer.length = N % C := by rw [hinv.2.1, hproc]
  have hbat : stf.metrics.batches = N / C := by rw [hinv.2.2, hproc]
  by_cases hempty : stf.buffer.isEmpty
  · rw [if_pos hempty]
    have hnil : stf.buffer = [] := List.isEmpty_iff.mp hempty
    have hmod : N % C = 0 := by rw [← hbuf, hnil]; rfl
    rw [ceil_div_eq _ _ hC, if_pos hmod, Nat.add_zero]
    simp [Except.map, hproc, hbat]
  · rw [if_neg hempty]
    have hne : stf.buffer ≠ [] := fun h => hempty (by simp [h])
    have hmod : ¬ N % C = 0 := by
      rw [← hbuf]
      intro h
      exact hne (List.length_eq_zero.mp h)
    rw [ceil_div_eq _ _ hC, if_neg hmod]
    simp [Except.map, hproc, hbat]

/-! ## Concrete `stod` evaluations -/

/-- Evaluates `stodM` on a plain unsigned digit string. -/
theorem stodE_digits (s : String) (ds : List Char) (n : ℕ)
    (h1 : scanStod s.toList = .dec ⟨false, ds, [], false, []⟩)
    (h2 : digitsToNat ds = n) : stodE s = some (.val (n : ℚ)) := by
  refine stodE_dec_of s _ _ h1 ?_
  norm_num [partsVal, h2, show digitsToNat ([] : List Char) = 0 from rfl]

theorem stodM_digits (s : String) (ds : List Char) (n : ℕ)
    (h1 : scanStod s.toList = .dec ⟨false, ds, [], false, []⟩)
    (h2 : digitsToNat ds = n) : stodM s = some (n : ℚ) :=
  (stodM_some_iff s _).mpr (stodE_digits s ds n h1 h2)

theorem stodE_100 : stodE "100" = some (.val (100 : ℚ)) := by
  have := stodE_digits "100" ['1', '0', '0'] 100 (by decide) (by decide)
  simpa using this

/-! ## Claim theorems -/

/-- Claim C1, counterexample.  The round-trip law as stated fails on the
code in two independent ways.  First, the validator does not inspect
`status`, so the record `{id := "a", model := "b", condition := "good",
price := 100, status := ""}` is valid and comma-free, but it serializes
to `"a,b,good,100,"`; the tokenizer drops the trailing empty field, the
line is re-read under the legacy 4-field layout, and parsing fails with
`InvalidNumber` (`stod("good")`).  Second, the serializer prints the
price with 6 significant digits, so price `1234567` serializes as
`"1.23457e+06"` and parses back as `1234570 ≠ 1234567`. -/
theorem C1_roundtrip_counterexample :
    (validate ⟨"a", "b", "good", 100, ""⟩ = true
      ∧ commaFreeS "a" ∧ commaFreeS "b" ∧ commaFreeS "good" ∧ commaFreeS ""
      ∧ serializeE ⟨"a", "b", "good", 100, ""⟩ = .ok "a,b,good,100,"
      ∧ parseE "a,b,good,100," = .error .invalidNumber)
    ∧ (validate ⟨"a", "b", "good", 1234567, "Available"⟩ = true
      ∧ serializeE ⟨"a", "b", "good", 1234567, "Available"⟩
          = .ok "a,b,good,1.23457e+06,Available"
      ∧ parseE "a,b,good,1.23457e+06,Available"
          = .ok (some ⟨"a", "b", "good", 1234570, "Available"⟩)
      ∧ (⟨"a", "b", "good", 1234570, "Available"⟩ : CarRecord)
          ≠ ⟨"a", "b", "good", 1234567, "Available"⟩) := by
  have hsci : stodE "1.23457e+06" = some (.val (1234570 : ℚ)) := by
    refine stodE_dec_of _ ⟨false, ['1'], ['2', '3', '4', '5', '7'], false, ['0', '6']⟩ _
      (by decide) ?_
    norm_num [partsVal, show digitsToNat ['1', '2', '3', '4', '5', '7'] = 123457 from by decide,
      show digitsToNat ['0', '6'] = 6 from by decide]
  have hpar : parseE "a,b,good,1.23457e+06,Available"
      = .ok (some ⟨"a", "b", "good", 1234570, "Available"⟩) := by
    rw [parseE_of_ne_empty _ (by decide),
      show tokStr "a,b,good,1.23457e+06,Available"
        = ["a", "b", "good", "1.23457e+06", "Available"] from by decide,
      parseCore_five, finishRecord_of_stod_some _ _ _ _ _ _ hsci, if_pos (by decide)]
  exact ⟨⟨by decide, by decide, by decide, by decide, by decide, by decide, by decide⟩,
    ⟨by decide, by decide, hpar, by decide⟩⟩

/-- Claim C1, amended.  Round-trip law with the two conditions the code
actually needs: for every record satisfying the Validator whose string
fields contain no comma, whose status is non-empty, and whose price is
reproduced exactly by the serializer's default 6-significant-digit
formatting, `parse(serialize(r))` succeeds and returns `r`, including
the `pricePerDay` field. -/
theorem C1_roundtrip (r : CarRecord) (hval : validate r = true)
    (h1 : commaFreeS r.id) (h2 : commaFreeS r.model) (h3 : commaFreeS r.condition)
    (h4 : commaFreeS r.status) (hne : r.status ≠ "")
    (hfmt : stodM (fmtDouble r.pricePerDay) = some r.pricePerDay) :
    ∃ line, serializeE r = .ok line ∧ parseE line = .ok (some r) :=
  ⟨_, serializeE_ok r hval, roundtrip_of r hval h1 h2 h3 h4 hne hfmt⟩

/-- Claim C1 witness: the amended round trip at the spec's own example
record `car-001,Horizon,excellent,2500,Available`. -/
theorem C1_roundtrip_witness :
    validate ⟨"car-001", "Horizon", "excellent", 2500, "Available"⟩ = true
    ∧ stodM (fmtDouble (2500 : ℚ)) = some (2500 : ℚ)
    ∧ ∃ line, serializeE ⟨"car-001", "Horizon", "excellent", 2500, "Available"⟩ = .ok line
        ∧ parseE line = .ok (some ⟨"car-001", "Horizon", "excellent", 2500, "Available"⟩) := by
  have hstod : stodM (fmtDouble (2500 : ℚ)) = some (2500 : ℚ) := by
    rw [show fmtDouble (2500 : ℚ) = "2500" from by decide]
    have := stodM_digits "2500" ['2', '5', '0', '0'] 2500 (by decide) (by decide)
    simpa using this
  exact ⟨by decide, hstod,
    C1_roundtrip _ (by decide) (by decide) (by decide) (by decide) (by decide) (by decide) hstod⟩

/-- Claim C2, counterexample.  The claim asserts the previous target
content stays intact at every interruption point between writing the
temporary file and completing the rename.  It fails: `write` calls
`fs::remove(target)` before `fs::rename` (`as.cpp:139`–`142`), so the
trace of `write(["new"])` over a target holding `["old"]` contains an
interruption point inside that window at which the target is absent. -/
theorem C2_atomic_counterexample :
    ¬ (∀ s ∈ windowStates ⟨some ["old"], none⟩ ["new"], s.target = some ["old"]) := by
  decide

/-- Claim C2, amended.  The writer is atomic only up to the remove step:
at every point of the trace the target is the previous complete content,
absent, or the new complete content — never partially written; until the
remove step the previous content is fully intact; and in the window
between finishing the temporary file and the rename, the target is the
previous content or absent while the new content is complete in the
temporary file. -/
theorem C2_atomic (init : FsState) (lines : List String) :
    (∀ s ∈ writeTrace init lines,
        s.target = init.target ∨ s.target = none ∨ s.target = some lines)
    ∧ (∀ s ∈ (writeTrace init lines).take (lines.length + 2), s.target = init.target)
    ∧ (∀ s ∈ windowStates init lines,
        (s.target = init.target ∨ s.target = none) ∧ s.tmp = some lines) :=
  ⟨writeTrace_target_cases init lines, writeTrace_before_remove init lines,
    windowStates_spec init lines⟩

/-- Claim C2 witness: the amended statement at the counterexample's
interruption window. -/
theorem C2_atomic_witness :
    ((⟨some ["old"], some ["new"]⟩ : FsState) ∈ windowStates ⟨some ["old"], none⟩ ["new"])
    ∧ (((⟨some ["old"], some ["new"]⟩ : FsState).target = (⟨some ["old"], none⟩ : FsState).target
        ∨ (⟨some ["old"], some ["new"]⟩ : FsState).target = none)
      ∧ (⟨some ["old"], some ["new"]⟩ : FsState).tmp = some ["new"]) :=
  ⟨by decide, (C2_atomic ⟨some ["old"], none⟩ ["new"]).2.2 _ (by decide)⟩

/-- Claim C3: chunk accounting.  For every source file, positive chunk
size `C` and repository, `ingest` succeeds and reports
`processedRecords = N` and `batches = (N + C - 1) / C` — the ceiling of
`N / C`, which is `0` when `N = 0` — where `N` is the number of lines
that parse successfully; and `ingest` with chunk size `0` fails with
`InvalidArgument`, returning no metrics and no repository (the guard
precedes all streaming and mutation in the source). -/
theorem C3_chunk_accounting :
    (∀ (repo : Repo) (lines : List String) (C : ℕ), 0 < C →
      (ingest repo lines C).map (fun x => (x.1.processedRecords, x.1.batches))
        = .ok ((parsedRecords lines).length, ((parsedRecords lines).length + C - 1) / C))
    ∧ (∀ (repo : Repo) (lines : List String), ingest repo lines 0 = .error .invalidArgument) := by
  refine ⟨fun repo lines C hC => ingest_metrics repo lines C hC, fun repo lines => ?_⟩
  unfold ingest
  rw [if_pos rfl]

/-- Claim C3 witness: chunk accounting instantiated at a concrete
repository, file and chunk size. -/
theorem C3_chunk_accounting_witness :
    (0 < 2)
    ∧ (ingest (mkRepo []) ["x,good,100,s", "bad", "y,good,50,s"] 2).map
        (fun x => (x.1.processedRecords, x.1.batches))
      = .ok ((parsedRecords ["x,good,100,s", "bad", "y,good,50,s"]).length,
             ((parsedRecords ["x,good,100,s", "bad", "y,good,50,s"]).length + 2 - 1) / 2) :=
  ⟨by decide, C3_chunk_accounting.1 (mkRepo []) ["x,good,100,s", "bad", "y,good,50,s"] 2 (by decide)⟩

/-- Claim C4: malformed-line tolerance.  Streaming a file delivers to the
consumer exactly the successfully parsed records, in file order — lines
whose parse fails (or is empty) contribute nothing and do not abort the
fold, which is total — and `ingest` over the file reports
`processedRecords` equal to the number of successfully parsed lines. -/
theorem C4_malformed_tolerance :
    (∀ (α : Type) (lines : List String) (f : α → CarRecord → α) (a : α),
        streamFold lines f a = (parsedRecords lines).foldl f a)
    ∧ (∀ (repo : Repo) (lines : List String) (C : ℕ), 0 < C →
        (ingest repo lines C).map (fun x => x.1.processedRecords)
          = .ok (parsedRecords lines).length) := by
  constructor
  · intro α lines f a
    exact streamFold_eq_foldl lines f a
  · intro repo lines C hC
    have hm := ingest_metrics repo lines C hC
    cases hi : ingest repo lines C with
    | error e => rw [hi] at hm; simp [Except.map] at hm
    | ok x =>
      rw [hi] at hm
      simp only [Except.map] at hm ⊢
      have := (Except.ok.injEq _ _).mp hm
      have h1 := congrArg Prod.fst this
      simpa using h1

/-- Claim C4 witness: processed-record count over a file with one
malformed line among parsed lines. -/
theorem C4_malformed_tolerance_witness :
    (0 < 4)
    ∧ (ingest (mkRepo []) ["x,good,100,s", "oops", "y,good,50,s"] 4).map
        (fun x => x.1.processedRecords)
      = .ok (parsedRecords ["x,good,100,s", "oops", "y,good,50,s"]).length :=
  ⟨by decide, C4_malformed_tolerance.2 (mkRepo []) ["x,good,100,s", "oops", "y,good,50,s"] 4 (by decide)⟩

/-- Claim C5: at-most-one mapping per id, last write wins.  After any
sequence of `upsert` and `bulkUpsert` calls on a repository constructed
from a backend snapshot, `find(id)` returns the last record written with
that id, falling back to the last loaded record with that id (reload
lets later duplicates overwrite earlier ones), or nothing; and the
repository's key list holds no duplicate id. -/
theorem C5_last_write_wins (loaded : List CarRecord) (ops : List RepoOp) (id : String) :
    rfind (applyOps (mkRepo loaded) ops) id
        = (lastWrittenIn (ops.flatMap opRecords) id).or (lastWrittenIn loaded id)
      ∧ (keysOf (applyOps (mkRepo loaded) ops).records).Nodup := by
  constructor
  · rw [rfind_applyOps, rfind_mkRepo]
  · exact nodup_keys_applyOps ops _ (nodup_keys_mkRepo loaded)

/-- Claim C6: idempotent flush.  One `flush` appends exactly one
`persistCars(all())` call to the backend log when the repository is dirty
and none otherwise, never changes the record map, always leaves the
dirty flag clear, and is idempotent — so two consecutive flushes with no
intervening mutation persist at most once. -/
theorem C6_idempotent_flush (repo : Repo) :
    (flush repo).persistLog = repo.persistLog ++ (if repo.dirty then [allRecords repo] else [])
      ∧ (flush repo).records = repo.records
      ∧ (flush repo).dirty = false
      ∧ flush (flush repo) = flush repo
      ∧ (flush (flush repo)).persistLog.length ≤ repo.persistLog.length + 1 := by
  refine ⟨?_, ?_, ?_, flush_flush repo, ?_⟩
  · rw [flush_characterization]
    by_cases h : repo.dirty <;> simp [h]
  · rw [flush_characterization]
    by_cases h : repo.dirty <;> simp [h]
  · rw [flush_characterization]
    by_cases h : repo.dirty <;> simp [h]
  · rw [flush_flush, flush_characterization]
    by_cases h : repo.dirty <;> simp [h]

/-- Claim C7: dual-layout field assignment.  For every line, the parser
equals the spec-side description of its token list (up to five tokens):
no tokens for the empty line, `MalformedRecord` under four tokens, the
legacy `model/condition/price/status` layout with the first field
re-used as id at exactly four, and the positional
`id/model/condition/price/status` layout at exactly five. -/
theorem C7_dual_layout (line : String) (ts : List String)
    (htok : tokStr line = ts) (hlen : ts.length ≤ 5) :
    parseE line = specParse ts := by
  by_cases hline : line = ""
  · subst hline
    have hts : ts = [] := by rw [← htok]; rfl
    subst hts
    rfl
  · rw [parseE_of_ne_empty _ hline, htok]
    rcases ts with _ | ⟨t0, _ | ⟨t1, _ | ⟨t2, _ | ⟨t3, _ | ⟨t4, rest⟩⟩⟩⟩⟩
    · exact absurd ((tokStr_eq_nil_iff line).mp htok) hline
    · rw [parseCore_short _ (by simp)]; rfl
    · rw [parseCore_short _ (by simp)]; rfl
    · rw [parseCore_short _ (by simp)]; rfl
    · rw [parseCore_four]; rfl
    · have hrest : rest = [] := by
        simp only [List.length_cons] at hlen
        exact List.eq_nil_of_length_eq_zero (by omega)
      subst hrest
      rw [parseCore_five]
      rfl

/-- Claim C7 witness: the refinement at a concrete five-field line. -/
theorem C7_dual_layout_witness :
    tokStr "a,b,good,1,e" = ["a", "b", "good", "1", "e"]
    ∧ (["a", "b", "good", "1", "e"] : List String).length ≤ 5
    ∧ parseE "a,b,good,1,e" = specParse ["a", "b", "good", "1", "e"] :=
  ⟨by decide, by decide,
    C7_dual_layout "a,b,good,1,e" ["a", "b", "good", "1", "e"] (by decide) (by decide)⟩

/-- Bridges a four-token line to its `finishRecord` call. -/
theorem parseE_finish_four (line t0 t1 t2 t3 : String)
    (htok : tokStr line = [t0, t1, t2, t3]) :
    parseE line = finishRecord t0 t0 t1 t2 t3 := by
  have hline : line ≠ "" := by
    intro h
    subst h
    rw [show tokStr "" = [] from rfl] at htok
    simp at htok
  rw [parseE_of_ne_empty _ hline, htok, parseCore_four]

/-- Bridges a five-or-more-token line to its `finishRecord` call. -/
theorem parseE_finish_five (line t0 t1 t2 t3 t4 : String) (rest : List String)
    (htok : tokStr line = t0 :: t1 :: t2 :: t3 :: t4 :: rest) :
    parseE line = finishRecord t0 t1 t2 t3 t4 := by
  have hline : line ≠ "" := by
    intro h
    subst h
    rw [show tokStr "" = [] from rfl] at htok
    simp at htok
  rw [parseE_of_ne_empty _ hline, htok, parseCore_five]

/-- Claim C8, counterexample.  The claim says a line whose
price-position field is non-numeric text fails with `InvalidNumber`.  It
fails at the field `"inf"`, which is not a number yet is accepted by
`std::stod` under `strtod`'s infinity form: the source assembles the
record with a non-finite price and the validator's `!std::isfinite`
check rejects it, so parse fails with `ValidationFailed`, not
`InvalidNumber`. -/
theorem C8_price_errors_counterexample :
    stodE "inf" = some .posInf
    ∧ parseE "a,b,good,inf,s" = .error .validationFailed
    ∧ (Except.error .validationFailed : Except ParseError (Option CarRecord))
        ≠ .error .invalidNumber :=
  ⟨by decide, by decide, by decide⟩

/-- Claim C8, amended: price parsing errors, split as the code behaves.
A price-position field (index 3 of a five-or-more-field line, index 2 of
a four-field line) from which `stod` can extract no conversion fails
with `InvalidNumber`; a price-position field `stod` reads as an infinity
or NaN assembles a record whose non-finite price the Validator rejects,
so parse fails with `ValidationFailed`; and a successful parse never
returns a record violating the Validator's invariants — non-empty id and
model, condition in the closed set, positive (hence finite) price. -/
theorem C8_price_errors :
    (∀ (line : String) (ts : List String), tokStr line = ts → 4 ≤ ts.length →
        stodE (if ts.length > 4 then ts.getD 3 "" else ts.getD 2 "") = none →
        parseE line = .error .invalidNumber)
    ∧ (∀ (line : String) (ts : List String) (w : StodVal), tokStr line = ts →
        4 ≤ ts.length →
        stodE (if ts.length > 4 then ts.getD 3 "" else ts.getD 2 "") = some w →
        (∀ q : ℚ, w ≠ .val q) →
        parseE line = .error .validationFailed)
    ∧ (∀ (line : String) (r : CarRecord), parseE line = .ok (some r) →
        ¬ r.id = "" ∧ ¬ r.model = "" ∧ r.condition ∈ allowedConditions ∧ 0 < r.pricePerDay) := by
  refine ⟨?_, ?_, ?_⟩
  · intro line ts htok hlen hstod
    rcases ts with _ | ⟨t0, _ | ⟨t1, _ | ⟨t2, _ | ⟨t3, _ | ⟨t4, rest⟩⟩⟩⟩⟩
    · simp at hlen
    · simp at hlen
    · simp at hlen
    · simp at hlen
    · rw [if_neg (by simp)] at hstod
      rw [show ([t0, t1, t2, t3] : List String).getD 2 "" = t2 from rfl] at hstod
      rw [parseE_finish_four line t0 t1 t2 t3 htok]
      exact finishRecord_of_stod_none _ _ _ _ _ hstod
    · rw [if_pos (by simp only [List.length_cons]; omega)] at hstod
      rw [show (t0 :: t1 :: t2 :: t3 :: t4 :: rest).getD 3 "" = t3 from rfl] at hstod
      rw [parseE_finish_five line t0 t1 t2 t3 t4 rest htok]
      exact finishRecord_of_stod_none _ _ _ _ _ hstod
  · intro line ts w htok hlen hstod hw
    rcases ts with _ | ⟨t0, _ | ⟨t1, _ | ⟨t2, _ | ⟨t3, _ | ⟨t4, rest⟩⟩⟩⟩⟩
    · simp at hlen
    · simp at hlen
    · simp at hlen
    · simp at hlen
    · rw [if_neg (by simp)] at hstod
      rw [show ([t0, t1, t2, t3] : List String).getD 2 "" = t2 from rfl] at hstod
      rw [parseE_finish_four line t0 t1 t2 t3 htok]
      exact finishRecord_of_stod_nonfinite _ _ _ _ _ _ hstod hw
    · rw [if_pos (by simp only [List.length_cons]; omega)] at hstod
      rw [show (t0 :: t1 :: t2 :: t3 :: t4 :: rest).getD 3 "" = t3 from rfl] at hstod
      rw [parseE_finish_five line t0 t1 t2 t3 t4 rest htok]
      exact finishRecord_of_stod_nonfinite _ _ _ _ _ _ hstod hw
  · intro line r h
    exact (validate_eq_true_iff r).mp (parseE_ok_inversion line r h).1

/-- Claim C8 witness: the amended statement at a no-conversion price
field, at a NaN price field, and at a concrete successful parse. -/
theorem C8_price_errors_witness :
    (tokStr "a,b,c,xyz,e" = ["a", "b", "c", "xyz", "e"]
      ∧ 4 ≤ (["a", "b", "c", "xyz", "e"] : List String).length
      ∧ stodE "xyz" = none
      ∧ parseE "a,b,c,xyz,e" = .error .invalidNumber)
    ∧ (tokStr "q,good,nan,s" = ["q", "good", "nan", "s"]
      ∧ 4 ≤ (["q", "good", "nan", "s"] : List String).length
      ∧ stodE "nan" = some .nan
      ∧ parseE "q,good,nan,s" = .error .validationFailed)
    ∧ (parseE "car-7,good,120,Free" = .ok (some ⟨"car-7", "car-7", "good", 120, "Free"⟩)
      ∧ (¬ ("car-7" : String) = "" ∧ ¬ ("car-7" : String) = ""
          ∧ ("good" : String) ∈ allowedConditions ∧ (0 : ℚ) < 120)) := by
  have hstod120 : stodE "120" = some (.val (120 : ℚ)) := by
    have := stodE_digits "120" ['1', '2', '0'] 120 (by decide) (by decide)
    simpa using this
  have hpar : parseE "car-7,good,120,Free"
      = .ok (some ⟨"car-7", "car-7", "good", 120, "Free"⟩) := by
    rw [parseE_of_ne_empty _ (by decide),
      show tokStr "car-7,good,120,Free" = ["car-7", "good", "120", "Free"] from by decide,
      parseCore_four, finishRecord_of_stod_some _ _ _ _ _ _ hstod120, if_pos (by decide)]
  refine ⟨⟨by decide, by decide, by decide,
    C8_price_errors.1 "a,b,c,xyz,e" ["a", "b", "c", "xyz", "e"]
      (by decide) (by decide) (by decide)⟩,
    ⟨by decide, by decide, by decide,
      C8_price_errors.2.1 "q,good,nan,s" ["q", "good", "nan", "s"] .nan
        (by decide) (by decide) (by decide) (by intro q; simp)⟩,
    hpar, ?_⟩
  have hinv := C8_price_errors.2.2 "car-7,good,120,Free" _ hpar
  simpa using hinv

/-- Claim C9, counterexample.  The claim reads: a line parse accepts in
which no status field is present gets status `"Available"`.  The code
never defaults: a four-field line (one with no fifth, status, field)
is accepted under the legacy layout with its fourth field as the status,
as here, where the accepted record's status is `"s"`, not
`"Available"`. -/
theorem C9_status_counterexample :
    (tokStr "x,good,100,s").length = 4
    ∧ parseE "x,good,100,s" = .ok (some ⟨"x", "x", "good", 100, "s"⟩)
    ∧ (⟨"x", "x", "good", 100, "s"⟩ : CarRecord).status ≠ "Available" := by
  have hpar : parseE "x,good,100,s" = .ok (some ⟨"x", "x", "good", 100, "s"⟩) := by
    rw [parseE_of_ne_empty _ (by decide),
      show tokStr "x,good,100,s" = ["x", "good", "100", "s"] from by decide,
      parseCore_four, finishRecord_of_stod_some _ _ _ _ _ _ stodE_100, if_pos (by decide)]
  exact ⟨by decide, hpar, by decide⟩

/-- Claim C9, amended.  Every line parse accepts has at least four
fields, and the returned record's status is always taken from the line —
the fifth field when more than four fields are present, the fourth
otherwise; the `"Available"` default in the status expression is
unreachable, and parse never defaults a status. -/
theorem C9_status_amended (line : String) (r : CarRecord)
    (h : parseE line = .ok (some r)) :
    4 ≤ (tokStr line).length
    ∧ r.status = (if (tokStr line).length > 4 then (tokStr line).getD 4 ""
                  else (tokStr line).getD 3 "") := by
  have hi := parseE_ok_inversion line r h
  exact ⟨hi.2.1, hi.2.2⟩

/-- Claim C9 witness: the amended statement at a concrete accepted
four-field line whose status comes from the line's fourth field. -/
theorem C9_status_amended_witness :
    parseE "y,fair,80,Kept" = .ok (some ⟨"y", "y", "fair", 80, "Kept"⟩)
    ∧ (4 ≤ (tokStr "y,fair,80,Kept").length
      ∧ (⟨"y", "y", "fair", 80, "Kept"⟩ : CarRecord).status
          = (if (tokStr "y,fair,80,Kept").length > 4 then (tokStr "y,fair,80,Kept").getD 4 ""
             else (tokStr "y,fair,80,Kept").getD 3 "")) := by
  have hstod80 : stodE "80" = some (.val (80 : ℚ)) := by
    have := stodE_digits "80" ['8', '0'] 80 (by decide) (by decide)
    simpa using this
  have hpar : parseE "y,fair,80,Kept" = .ok (some ⟨"y", "y", "fair", 80, "Kept"⟩) := by
    rw [parseE_of_ne_empty _ (by decide),
      show tokStr "y,fair,80,Kept" = ["y", "fair", "80", "Kept"] from by decide,
      parseCore_four, finishRecord_of_stod_some _ _ _ _ _ _ hstod80, if_pos (by decide)]
  exact ⟨hpar, C9_status_amended "y,fair,80,Kept" _ hpar⟩

/-- Claim C10: trailing-comma demotion.  A five-field line whose final
(status) field is empty — one ending in a comma — tokenizes to only four
fields (the tokenizer drops the trailing empty field), and parse
interprets it under the legacy four-field layout: id and model both from
the first field, the price parsed from the original condition position,
and the status from the original price position — not a record with an
empty or defaulted status. -/
theorem C10_trailing_comma (a b c d : String)
    (ha : commaFreeS a) (hb : commaFreeS b) (hc : commaFreeS c) (hd : commaFreeS d) :
    tokStr (a ++ "," ++ b ++ "," ++ c ++ "," ++ d ++ ",") = [a, b, c, d]
    ∧ parseE (a ++ "," ++ b ++ "," ++ c ++ "," ++ d ++ ",") = finishRecord a a b c d := by
  have htok := tokStr_join4_trailing a b c d ha hb hc hd
  refine ⟨htok, ?_⟩
  rw [parseE_of_ne_empty _ (join4_trailing_ne_empty a b c d), htok, parseCore_four]

/-- Claim C10 witness: the demotion at the concrete line
`id,model,condition,price,`. -/
theorem C10_trailing_comma_witness :
    commaFreeS "id" ∧ commaFreeS "model" ∧ commaFreeS "condition" ∧ commaFreeS "price"
    ∧ tokStr "id,model,condition,price," = ["id", "model", "condition", "price"]
    ∧ parseE "id,model,condition,price,"
        = finishRecord "id" "id" "model" "condition" "price" := by
  have h := C10_trailing_comma "id" "model" "condition" "price"
    (by decide) (by decide) (by decide) (by decide)
  exact ⟨by decide, by decide, by decide, by decide,
    by rw [show "id" ++ "," ++ "model" ++ "," ++ "condition" ++ "," ++ "price" ++ ","
        = "id,model,condition,price," from by decide] at h; exact h.1,
    by rw [show "id" ++ "," ++ "model" ++ "," ++ "condition" ++ "," ++ "price" ++ ","
        = "id,model,condition,price," from by decide] at h; exact h.2⟩

end CarRental
